import Mathlib

set_option allowUnsafeReducibility true

attribute [semireducible] Rat.mul Rat.add Rat.inv Rat.sub Rat.neg

/-!
Shallow embedding of the fixed-partition memory allocator in `src/alloc.py`
(class `Alloc`, dataclasses `Job` and `Block`).

Modelling conventions:
* Python `int` is modelled by `ℤ` (ids of blocks, which are always the
  naturals `1..N`, are modelled by `ℕ`; per-block usage counters, which are
  only ever incremented from `0`, are modelled by `ℕ`).
* Python `dict` is modelled by an insertion-ordered association list
  (`List (key × value)`); `dGet`/`dSet` mirror `d[k]` reads and `d[k] = v`
  writes (a write to a present key keeps its position, a write to an absent
  key appends, exactly as CPython dicts do).
* Python `set[int]` over the block ids `1..N` is modelled by a strictly
  ascending `List ℕ`: CPython sets of the small distinct ints `1..N` keep
  each element in its natural hash slot, so iteration order is ascending id
  order, re-adding a removed id puts it back in its slot, and the table
  never shrinks.  `setAdd` is `set.add`, `List.erase` is `set.remove`
  (on a list object, `list.remove`) on an element known to be present, and
  `setRemoveAll` is the `for idx in toRemove: busyList.remove(idx)` loop of
  `Alloc.deallocate` (`none` = the `KeyError` of removing an absent member).
* Fallible dictionary reads (`KeyError`) and the read of the attribute
  `totalTicks` before any `deallocate` call has assigned it
  (`AttributeError`) are modelled by `Option`: `none` is the raised
  exception.
* Python `float` arithmetic (`statistics.mean`, `statistics.median`,
  percentages, throughput) is modelled exactly by `ℚ`; `int(x)` on a
  nonnegative mean is truncation toward zero (`ratTrunc`).
-/

/-- `Job` dataclass of `src/alloc.py`: an id, a holding time in ticks,
and a memory size. -/
structure Job where
  id : ℤ
  time : ℤ
  size : ℤ
deriving DecidableEq, Repr

/-- `Block` dataclass of `src/alloc.py`: fixed id and size, plus the
occupancy fields `jid`, `busy`, `jobStart` (sentinels `-1`, `False`, `-1`
when free). -/
structure Block where
  id : ℕ
  size : ℤ
  jid : ℤ
  busy : Bool
  jobStart : ℤ
deriving DecidableEq, Repr

/-- `Block.allocate` of `src/alloc.py`. -/
def Block.allocate (b : Block) (tick : ℤ) (job : Job) : Block :=
  { b with jid := job.id, busy := true, jobStart := tick }

/-- `Block.deallocate` of `src/alloc.py`. -/
def Block.deallocate (b : Block) : Block :=
  { b with jid := -1, busy := false, jobStart := -1 }

/-- Read `m[k]` of an insertion-ordered dict; `none` is a `KeyError`. -/
def dGet [DecidableEq α] : List (α × β) → α → Option β
  | [], _ => none
  | (k, v) :: m, k' => if k' = k then some v else dGet m k'

/-- Write `m[k] = v` on an insertion-ordered dict: an existing key keeps
its position, a new key is appended (CPython dict semantics). -/
def dSet [DecidableEq α] : List (α × β) → α → β → List (α × β)
  | [], k, v => [(k, v)]
  | (k', v') :: m, k, v =>
    if k = k' then (k, v) :: m else (k', v') :: dSet m k v

/-- Read `du[k]` on a `defaultdict(int)`: a missing key is inserted with
value `0` as a side effect, exactly as in CPython.  Returns the value and
the (possibly extended) dict. -/
def duRead (du : List (ℕ × ℕ)) (k : ℕ) : ℕ × List (ℕ × ℕ) :=
  match dGet du k with
  | some c => (c, du)
  | none => (0, du ++ [(k, 0)])

/-- `du[k] += 1` on a `defaultdict(int)`: read (inserting `0` if missing),
add one, store back. -/
def duIncr (du : List (ℕ × ℕ)) (k : ℕ) : List (ℕ × ℕ) :=
  let r := duRead du k
  dSet r.2 k (r.1 + 1)

/-- Pure view of a `defaultdict(int)` value (no insertion side effect);
used only in theorem statements, never in the embedded code. -/
def duValue (du : List (ℕ × ℕ)) (k : ℕ) : ℕ :=
  (dGet du k).getD 0

/-- `set.add` on a CPython set of small ints, i.e. sorted insertion
(idempotent) into the ascending member list. -/
def setAdd : List ℕ → ℕ → List ℕ
  | [], i => [i]
  | j :: js, i =>
    if i < j then i :: j :: js
    else if i = j then j :: js
    else j :: setAdd js i

/-- The `for idx in toRemove: self.busyList.remove(idx)` loop of
`Alloc.deallocate`; `none` is the `KeyError` of removing an absent member. -/
def setRemoveAll : List ℕ → List ℕ → Option (List ℕ)
  | l, [] => some l
  | l, i :: is => if i ∈ l then setRemoveAll (l.erase i) is else none

/-- Stable insertion of `p` into a list already processed by
`sortByKey key`: `p` goes before the first element whose key is not
smaller, so earlier input elements stay before later equal-key ones. -/
def insByKey (key : α → ℤ) (p : α) : List α → List α
  | [] => [p]
  | q :: qs => if key p ≤ key q then p :: q :: qs else q :: insByKey key p qs

/-- Stable sort by an integer key, the behaviour of Python's `sorted`
with a `key=` function (Python's sort is stable). -/
def sortByKey (key : α → ℤ) : List α → List α
  | [] => []
  | p :: ps => insByKey key p (sortByKey key ps)

/-- Python `int(q)` on a rational: truncation toward zero. -/
def ratTrunc (q : ℚ) : ℤ :=
  if 0 ≤ q then ⌊q⌋ else -⌊-q⌋

/-- The values stored in the string-keyed `usageStats` dict of
`Alloc.calcStats`.  Python stores heterogeneous values (a raw block id,
a float, formatted strings, lists of formatted strings); each constructor
keeps the exact data that the corresponding Python value renders, so two
model values are equal exactly when the Python values are. -/
inductive StatVal where
  /-- a raw block id stored as `int` (`sortedUsage[0][0]`) -/
  | idVal (i : ℕ)
  /-- a raw number (the throughput float, or the int `0`) -/
  | numVal (q : ℚ)
  /-- a percentage string `f"{q:.1f}%"` -/
  | pctStr (q : ℚ)
  /-- the string `f"{used}K/{avail}K"` -/
  | memPairStr (used avail : ℤ)
  /-- the string `f"≥{t} allocs (mean: {m:.1f})"` -/
  | threshStr (t : ℤ) (m : ℚ)
  /-- a list `[f"Block {bid}" for bid in l]` -/
  | blockListStr (l : List ℕ)
  /-- a list `[f"Block {bid}({count}x)" for bid, count in l]` -/
  | blockCountListStr (l : List (ℕ × ℕ))
  /-- the string `f"Block {bid} ({count}x)"` -/
  | blockCountStr (bid count : ℕ)
  /-- the string `f"{n}K"` -/
  | memKStr (n : ℤ)
deriving DecidableEq, Repr

/-- The engine state: the fields of `Alloc.__init__` in `src/alloc.py`.
`ram` is the dict `int → Block`; `totalTicks` is `none` until the first
`deallocate` call assigns it (reading it before that is an
`AttributeError`). -/
structure Alloc where
  freeList : List ℕ
  busyList : List ℕ
  jobMap : List (ℤ × Job)
  ram : List (ℕ × Block)
  blockUsage : List (ℕ × ℕ)
  usageStats : List (String × StatVal)
  totalMemoryUsed : ℤ
  usedBlocks : List ℕ
  totalFragmentation : ℤ
  totalJobMemory : ℤ
  totalTicks : Option ℤ
  totalMemory : ℤ
deriving DecidableEq, Repr

/-- `Alloc.__init__(sizes)`: blocks numbered `1..N` in input order, all
free, `totalMemory = sum(sizes)`. -/
def Alloc.init (sizes : List ℤ) : Alloc :=
  { freeList := (List.range sizes.length).map (· + 1)
    busyList := []
    jobMap := []
    ram := sizes.enum.map (fun p => (p.1 + 1, Block.mk (p.1 + 1) p.2 (-1) false (-1)))
    blockUsage := []
    usageStats := []
    totalMemoryUsed := 0
    usedBlocks := []
    totalFragmentation := 0
    totalJobMemory := 0
    totalTicks := none
    totalMemory := sizes.sum }

/-- The success branch of `Alloc.firstFit` in `src/alloc.py`: record the
job, mark the block busy, move its id from free to busy, bump its usage
counter, update the one-time memory-used total, and accumulate
fragmentation and job memory. -/
def Alloc.placeAt (s : Alloc) (tick : ℤ) (job : Job) (idx : ℕ) (block : Block) : Alloc :=
  { s with
    jobMap := dSet s.jobMap job.id job
    ram := dSet s.ram idx (block.allocate tick job)
    freeList := s.freeList.erase idx
    busyList := setAdd s.busyList idx
    blockUsage := duIncr s.blockUsage idx
    totalMemoryUsed :=
      if idx ∈ s.usedBlocks then s.totalMemoryUsed else s.totalMemoryUsed + block.size
    usedBlocks := if idx ∈ s.usedBlocks then s.usedBlocks else s.usedBlocks ++ [idx]
    totalFragmentation := s.totalFragmentation + (block.size - job.size)
    totalJobMemory := s.totalJobMemory + job.size }

/-- The scan loop of `Alloc.firstFit`: walk the given iteration order of
the free list, place into the first block whose size fits the job, return
`false` if none fits.  `none` is a `KeyError` on `self.ram[idx]`. -/
def Alloc.firstFitAux (s : Alloc) (tick : ℤ) (job : Job) : List ℕ → Option (Bool × Alloc)
  | [] => some (false, s)
  | idx :: rest =>
    match dGet s.ram idx with
    | none => none
    | some block =>
      if job.size ≤ block.size then some (true, s.placeAt tick job idx block)
      else s.firstFitAux tick job rest

/-- `Alloc.firstFit(tick, job)` of `src/alloc.py`: scan `self.freeList`
in its iteration order (ascending block id). -/
def Alloc.firstFit (s : Alloc) (tick : ℤ) (job : Job) : Option (Bool × Alloc) :=
  s.firstFitAux tick job s.freeList

/-- The key evaluations of `sorted(self.freeList, key=lambda idx:
self.ram[idx].size)`: pair each free id with its block size; `none` is a
`KeyError`. -/
def buildPairs (ram : List (ℕ × Block)) : List ℕ → Option (List (ℤ × ℕ))
  | [] => some []
  | i :: is =>
    match dGet ram i with
    | none => none
    | some b => (buildPairs ram is).map (fun ps => (b.size, i) :: ps)

/-- `Alloc.bestFit(tick, job)` of `src/alloc.py`: sort the free ids by
block size (stable, so ties keep ascending id order), point `freeList` at
the sorted list, run `firstFit`, then restore the *original* `freeList`
object — which still contains the chosen id, because `firstFit` removed it
from the temporary sorted list only. -/
def Alloc.bestFit (s : Alloc) (tick : ℤ) (job : Job) : Option (Bool × Alloc) :=
  match buildPairs s.ram s.freeList with
  | none => none
  | some pairs =>
    let sortedBlocks := (sortByKey (fun p => p.1) pairs).map (fun p => p.2)
    match Alloc.firstFitAux { s with freeList := sortedBlocks } tick job sortedBlocks with
    | none => none
    | some (res, s1) => some (res, { s1 with freeList := s.freeList })

/-- The scan loop of `Alloc.canAllocate`: walk `[*freeList, *busyList]`
and return `True` at the first block whose size fits. -/
def Alloc.canAllocAux (ram : List (ℕ × Block)) (job : Job) : List ℕ → Option Bool
  | [] => some false
  | i :: is =>
    match dGet ram i with
    | none => none
    | some b => if job.size ≤ b.size then some true else Alloc.canAllocAux ram job is

/-- `Alloc.canAllocate(job)` of `src/alloc.py`. -/
def Alloc.canAllocate (s : Alloc) (job : Job) : Option Bool :=
  Alloc.canAllocAux s.ram job (s.freeList ++ s.busyList)

/-- The `for idx in self.busyList` loop of `Alloc.deallocate`: for each
busy id compute `tick - jobStart`, look up the occupying job, and if its
time has elapsed clear the block, add the id to the free set, and append
it to `toRemove`.  `busyList` itself is not touched inside the loop.
`none` is a `KeyError` on `self.ram[idx]` or `self.jobMap[block.jid]`. -/
def Alloc.deallocAux (tick : ℤ) : List ℕ → Alloc → List ℕ → Option (Alloc × List ℕ)
  | [], s, toRemove => some (s, toRemove)
  | idx :: rest, s, toRemove =>
    match dGet s.ram idx with
    | none => none
    | some block =>
      match dGet s.jobMap block.jid with
      | none => none
      | some job =>
        if job.time ≤ tick - block.jobStart then
          Alloc.deallocAux tick rest
            { s with ram := dSet s.ram idx block.deallocate,
                     freeList := setAdd s.freeList idx }
            (toRemove ++ [idx])
        else Alloc.deallocAux tick rest s toRemove

/-- `Alloc.deallocate(tick)` of `src/alloc.py`: record the tick in
`totalTicks`, run the busy-list pass collecting `toRemove`, then remove
the collected ids from `busyList`. -/
def Alloc.deallocate (s : Alloc) (tick : ℤ) : Option Alloc :=
  let s0 : Alloc := { s with totalTicks := some tick }
  match Alloc.deallocAux tick s0.busyList s0 [] with
  | none => none
  | some (s1, toRemove) =>
    (setRemoveAll s1.busyList toRemove).map (fun bl => { s1 with busyList := bl })

/-- `statistics.median` of `src/alloc.py`'s usage counts: sort ascending,
middle element for odd length, average of the two middles for even length.
(The code only ever calls it on a nonempty list; the `0` for the empty
list is never reached.) -/
def medianQ (l : List ℕ) : ℚ :=
  let sorted := sortByKey (fun (n : ℕ) => (n : ℤ)) l
  let n := sorted.length
  if n = 0 then 0
  else if n % 2 = 1 then (((sorted.get? (n / 2)).getD 0 : ℕ) : ℚ)
  else ((((sorted.get? (n / 2 - 1)).getD 0 : ℕ) : ℚ) + (((sorted.get? (n / 2)).getD 0 : ℕ) : ℚ)) / 2

/-- The `for blockId in self.ram.keys()` loop of
`Alloc.calcStorageUtilization`: split the block ids into never-used ids
and `(id, count)` pairs of used ids, threading the `defaultdict` (whose
reads insert missing keys with `0`).  Returns
`(neverUsedBlocks, usedBlocks, blockUsage')`. -/
def usageScan : List ℕ → List (ℕ × ℕ) → List ℕ × List (ℕ × ℕ) × List (ℕ × ℕ)
  | [], du => ([], [], du)
  | i :: is, du =>
    let r := duRead du i
    let rest := usageScan is r.2
    if r.1 = 0 then (i :: rest.1, rest.2.1, rest.2.2)
    else (rest.1, (i, r.1) :: rest.2.1, rest.2.2)

/-- The categorisation loop of `Alloc.calcStorageUtilization`: a used
block is heavily used iff its count is `≥` the threshold, else lightly
used.  Returns `(lightlyUsedBlocks, heavilyUsedBlocks)` in scan order. -/
def classifyLoop (thr : ℤ) : List (ℕ × ℕ) → List (ℕ × ℕ) × List (ℕ × ℕ)
  | [] => ([], [])
  | p :: rest =>
    let r := classifyLoop thr rest
    if thr ≤ (p.2 : ℤ) then (r.1, p :: r.2) else (p :: r.1, r.2)

/-- The fold of Python's `max(l, key=lambda x: x[1])`: keep the current
element unless a strictly larger key appears, so the first maximum wins
(lowest block id on ties, since the scan is in id order). -/
def goMax (cur : ℕ × ℕ) : List (ℕ × ℕ) → ℕ × ℕ
  | [] => cur
  | q :: qs => if cur.2 < q.2 then goMax q qs else goMax cur qs

/-- Python's `max(l, key=lambda x: x[1]) if l else None`. -/
def firstMaxBy : List (ℕ × ℕ) → Option (ℕ × ℕ)
  | [] => none
  | p :: rest => some (goMax p rest)

/-- The fold of Python's `min(l, key=lambda x: x[1])`: first minimum wins. -/
def goMin (cur : ℕ × ℕ) : List (ℕ × ℕ) → ℕ × ℕ
  | [] => cur
  | q :: qs => if q.2 < cur.2 then goMin q qs else goMin cur qs

/-- Python's `min(l, key=lambda x: x[1]) if l else None`. -/
def firstMinBy : List (ℕ × ℕ) → Option (ℕ × ℕ)
  | [] => none
  | p :: rest => some (goMin p rest)

/-- The dict returned by `Alloc.calcStorageUtilization` in
`src/alloc.py`, one field per key. -/
structure StorageStats where
  neverUsedBlocks : List ℕ
  lightlyUsedBlocks : List (ℕ × ℕ)
  heavilyUsedBlocks : List (ℕ × ℕ)
  neverUsedPercentage : ℚ
  lightlyUsedPercentage : ℚ
  heavilyUsedPercentage : ℚ
  mostUsedBlock : Option (ℕ × ℕ)
  leastUsedBlock : Option (ℕ × ℕ)
  totalMemoryUsed : ℤ
  totalMemoryAvailable : ℤ
  memoryUtilizationPercentage : ℚ
  heavilyUsedThreshold : ℤ
  meanUsage : ℚ
  medianUsage : ℚ
deriving DecidableEq, Repr

/-- `Alloc.calcStorageUtilization` of `src/alloc.py`.  Note the side
effect: reading the `defaultdict` `blockUsage` for every block id inserts
missing ids with count `0`, so the returned engine state carries the
extended dict. -/
def Alloc.calcStorageUtilization (s : Alloc) : StorageStats × Alloc :=
  let totalBlocks := s.ram.length
  let scan := usageScan (s.ram.map Prod.fst) s.blockUsage
  let neverUsedBlocks := scan.1
  let usedBlocks := scan.2.1
  let usageCounts := usedBlocks.map Prod.snd
  let meanUsage : ℚ :=
    if usedBlocks.isEmpty then 0 else (usageCounts.sum : ℚ) / (usageCounts.length : ℚ)
  let medianUsage : ℚ := if usedBlocks.isEmpty then 0 else medianQ usageCounts
  let thr : ℤ := if usedBlocks.isEmpty then 1 else max 1 (ratTrunc meanUsage)
  let cls := classifyLoop thr usedBlocks
  ({ neverUsedBlocks := neverUsedBlocks
     lightlyUsedBlocks := cls.1
     heavilyUsedBlocks := cls.2
     neverUsedPercentage :=
       if 0 < totalBlocks then (neverUsedBlocks.length : ℚ) / (totalBlocks : ℚ) * 100 else 0
     lightlyUsedPercentage :=
       if 0 < totalBlocks then (cls.1.length : ℚ) / (totalBlocks : ℚ) * 100 else 0
     heavilyUsedPercentage :=
       if 0 < totalBlocks then (cls.2.length : ℚ) / (totalBlocks : ℚ) * 100 else 0
     mostUsedBlock := firstMaxBy usedBlocks
     leastUsedBlock := firstMinBy usedBlocks
     totalMemoryUsed := s.totalMemoryUsed
     totalMemoryAvailable := s.totalMemory
     memoryUtilizationPercentage :=
       if 0 < s.totalMemory then (s.totalMemoryUsed : ℚ) / (s.totalMemory : ℚ) * 100 else 0
     heavilyUsedThreshold := thr
     meanUsage := meanUsage
     medianUsage := medianUsage },
   { s with blockUsage := scan.2.2 })

/-- The dict returned by `Alloc.calcInternalFragmentation` in
`src/alloc.py`, one field per key. -/
structure FragStats where
  totalFragmentation : ℤ
  totalJobMemory : ℤ
  totalAllocatedMemory : ℤ
  fragmentationPercentage : ℚ
deriving DecidableEq, Repr

/-- `Alloc.calcInternalFragmentation` of `src/alloc.py` (pure). -/
def Alloc.calcInternalFragmentation (s : Alloc) : FragStats :=
  let totalAllocatedMemory := s.totalJobMemory + s.totalFragmentation
  { totalFragmentation := s.totalFragmentation
    totalJobMemory := s.totalJobMemory
    totalAllocatedMemory := totalAllocatedMemory
    fragmentationPercentage :=
      if 0 < totalAllocatedMemory then
        (s.totalFragmentation : ℚ) / (totalAllocatedMemory : ℚ) * 100
      else 0 }

/-- `Alloc.calcStats` of `src/alloc.py`: build the string-keyed stats
dict in the source's exact write order, on top of the *persistent*
`usageStats` dict carried by the engine.  `none` is the `AttributeError`
raised by reading `self.totalTicks` when no `deallocate` call has ever
assigned it.  Returns the stats dict and the updated engine (extended
`blockUsage`, retained `usageStats`). -/
def Alloc.calcStats (s : Alloc) : Option (List (String × StatVal) × Alloc) :=
  let sortedUsage := sortByKey (fun p => (p.2 : ℤ)) s.blockUsage
  let us0 :=
    match sortedUsage with
    | [] => s.usageStats
    | p :: _ => dSet s.usageStats "Least Used Block" (StatVal.idVal p.1)
  match s.totalTicks with
  | none => none
  | some totalTicks =>
    let totalJobs : ℤ := s.jobMap.length
    let throughput : ℚ :=
      if 0 < totalTicks then (totalJobs : ℚ) / (totalTicks : ℚ) else 0
    let us1 := dSet us0 "Throughput (jobs/tick)" (StatVal.numVal throughput)
    let su := s.calcStorageUtilization
    let st := su.1
    let us2 := dSet us1 "% Never Used" (StatVal.pctStr st.neverUsedPercentage)
    let us3 := dSet us2 "% Lightly Used" (StatVal.pctStr st.lightlyUsedPercentage)
    let us4 := dSet us3 "% Heavily Used" (StatVal.pctStr st.heavilyUsedPercentage)
    let us5 := dSet us4 "Memory Used" (StatVal.memPairStr st.totalMemoryUsed st.totalMemoryAvailable)
    let us6 := dSet us5 "Memory Util %" (StatVal.pctStr st.memoryUtilizationPercentage)
    let us7 := dSet us6 "Heavy Threshold" (StatVal.threshStr st.heavilyUsedThreshold st.meanUsage)
    let us8 :=
      if st.neverUsedBlocks.isEmpty then us7
      else dSet us7 "Never Used Blocks" (StatVal.blockListStr st.neverUsedBlocks)
    let us9 :=
      if st.lightlyUsedBlocks.isEmpty then us8
      else dSet us8 "Lightly Used Blocks" (StatVal.blockCountListStr st.lightlyUsedBlocks)
    let us10 :=
      if st.heavilyUsedBlocks.isEmpty then us9
      else dSet us9 "Heavily Used Blocks" (StatVal.blockCountListStr st.heavilyUsedBlocks)
    let us11 :=
      match st.mostUsedBlock with
      | none => us10
      | some p => dSet us10 "Most Used Block" (StatVal.blockCountStr p.1 p.2)
    let us12 :=
      match st.leastUsedBlock with
      | none => us11
      | some p => dSet us11 "Least Used Block" (StatVal.blockCountStr p.1 p.2)
    let fs := Alloc.calcInternalFragmentation su.2
    let us13 := dSet us12 "Total Internal Fragmentation" (StatVal.memKStr fs.totalFragmentation)
    let us14 := dSet us13 "Internal Fragmentation %" (StatVal.pctStr fs.fragmentationPercentage)
    let us15 := dSet us14 "Total Job Memory" (StatVal.memKStr fs.totalJobMemory)
    some (us15, { su.2 with usageStats := us15 })

/-- One driver call into the engine, as issued by the control loops of
`src/alloc.py.__main__` and `src/main.py` (`Anim.update`). -/
inductive Op where
  | ff (tick : ℤ) (job : Job)
  | bf (tick : ℤ) (job : Job)
  | dealloc (tick : ℤ)
  | can (job : Job)
  | stats
deriving DecidableEq, Repr

/-- The size of the block a `firstFit`-style scan of `order` would
choose: the first block in `order` whose size fits the job. -/
def chosenSizeAux (ram : List (ℕ × Block)) (job : Job) : List ℕ → Option ℤ
  | [] => none
  | i :: is =>
    match dGet ram i with
    | none => none
    | some b => if job.size ≤ b.size then some b.size else chosenSizeAux ram job is

/-- Size of the block `firstFit` chooses from state `s` (if any). -/
def chosenSizeFF (s : Alloc) (job : Job) : Option ℤ :=
  chosenSizeAux s.ram job s.freeList

/-- Size of the block `bestFit` chooses from state `s` (if any). -/
def chosenSizeBF (s : Alloc) (job : Job) : Option ℤ :=
  match buildPairs s.ram s.freeList with
  | none => none
  | some pairs => chosenSizeAux s.ram job ((sortByKey (fun p => p.1) pairs).map (fun p => p.2))

/-- Run a sequence of engine calls from a state, accumulating the sum of
the chosen block's size over every successful placement (the ghost
accounting needed to state the conservation invariant).  `none` is an
uncaught Python exception somewhere in the run. -/
def runCons : Alloc → List Op → Option (Alloc × ℤ)
  | s, [] => some (s, 0)
  | s, op :: ops =>
    match op with
    | .ff t job =>
      match s.firstFit t job with
      | none => none
      | some r =>
        (runCons r.2 ops).map
          (fun p => (p.1, p.2 + if r.1 then (chosenSizeFF s job).getD 0 else 0))
    | .bf t job =>
      match s.bestFit t job with
      | none => none
      | some r =>
        (runCons r.2 ops).map
          (fun p => (p.1, p.2 + if r.1 then (chosenSizeBF s job).getD 0 else 0))
    | .dealloc t =>
      match s.deallocate t with
      | none => none
      | some s' => runCons s' ops
    | .can job =>
      match s.canAllocate job with
      | none => none
      | some _ => runCons s ops
    | .stats =>
      match s.calcStats with
      | none => none
      | some r => runCons r.2 ops

/-- Python's builtin `round` to the nearest integer, halves to even.
Modelled from the spec: used only to state the spec's `round(mean usage)`
in the adaptive-threshold claim; the code itself uses `int(meanUsage)`
(truncation). -/
def roundNearest (q : ℚ) : ℤ :=
  let f := ⌊q⌋
  let r := q - (f : ℚ)
  if r < 1 / 2 then f
  else if 1 / 2 < r then f + 1
  else if f % 2 = 0 then f else f + 1

/-- Decidable form of "block `i` exists in `ram` and fits `job`"; used in
theorem hypotheses so that witnesses can evaluate them. -/
def fitsB (s : Alloc) (job : Job) (i : ℕ) : Bool :=
  match dGet s.ram i with
  | some b => decide (job.size ≤ b.size)
  | none => false

/-- The size of block `i` in `s.ram` (`0` when absent); used only in
theorem statements. -/
def blockSizeD (s : Alloc) (i : ℕ) : ℤ :=
  match dGet s.ram i with
  | some b => b.size
  | none => 0

/-- Decidable form of "block `i` exists and its occupying job id is in
the job map" — what one pass of the `deallocate` loop needs in order not
to raise; used in theorem hypotheses. -/
def okB (s : Alloc) (i : ℕ) : Bool :=
  match dGet s.ram i with
  | none => false
  | some b => (dGet s.jobMap b.jid).isSome

/-- Decidable form of "the job occupying block `i` has exhausted its time
at `tick`" (`tick - jobStart ≥ job.time`); used in theorem statements. -/
def expiredB (s : Alloc) (tick : ℤ) (i : ℕ) : Bool :=
  match dGet s.ram i with
  | none => false
  | some b =>
    match dGet s.jobMap b.jid with
    | none => false
    | some job => decide (job.time ≤ tick - b.jobStart)

/-- The block ids with at least one recorded use, in `ram` key order;
used only in theorem statements. -/
def usedIds (s : Alloc) : List ℕ :=
  (s.ram.map Prod.fst).filter (fun i => duValue s.blockUsage i != 0)

/-- A small concrete engine state used as a witness input for the
usage-distribution statistics: one block of size `10`, allocated twice
in its history (usage count `2`), currently free. -/
def usageWitnessState : Alloc :=
  { freeList := [1]
    busyList := []
    jobMap := [(1, Job.mk 1 0 10)]
    ram := [(1, Block.mk 1 10 (-1) false (-1))]
    blockUsage := [(1, 2)]
    usageStats := []
    totalMemoryUsed := 10
    usedBlocks := [1]
    totalFragmentation := 0
    totalJobMemory := 20
    totalTicks := some 1
    totalMemory := 10 }

/-- A concrete engine state with one busy block: block `1` (size `10`)
holds job `1` (time `2`, size `5`) since tick `0`. -/
def busyWitnessState : Alloc :=
  { freeList := []
    busyList := [1]
    jobMap := [(1, Job.mk 1 2 5)]
    ram := [(1, Block.mk 1 10 1 true 0)]
    blockUsage := [(1, 1)]
    usageStats := []
    totalMemoryUsed := 10
    usedBlocks := [1]
    totalFragmentation := 5
    totalJobMemory := 5
    totalTicks := some 0
    totalMemory := 10 }

/-- `busyWitnessState` after `deallocate(5)`: the job's two ticks have
elapsed, so block `1` is free again. -/
def freedWitnessState : Alloc :=
  { freeList := [1]
    busyList := []
    jobMap := [(1, Job.mk 1 2 5)]
    ram := [(1, Block.mk 1 10 (-1) false (-1))]
    blockUsage := [(1, 1)]
    usageStats := []
    totalMemoryUsed := 10
    usedBlocks := [1]
    totalFragmentation := 5
    totalJobMemory := 5
    totalTicks := some 5
    totalMemory := 10 }

/-- The engine state after `Alloc([10]); firstFit(0, Job(1, time=1,
size=4))`: fragmentation `6` plus job memory `4` equals the chosen
block's size `10`. -/
def consWitnessState : Alloc :=
  { freeList := []
    busyList := [1]
    jobMap := [(1, Job.mk 1 1 4)]
    ram := [(1, Block.mk 1 10 1 true 0)]
    blockUsage := [(1, 1)]
    usageStats := []
    totalMemoryUsed := 10
    usedBlocks := [1]
    totalFragmentation := 6
    totalJobMemory := 4
    totalTicks := none
    totalMemory := 10 }

/-- **C1** (code-bug evaluation).  The claim says `freeList` and
`busyList` are disjoint in every reachable state, in particular right
after a successful `bestFit`.  The code violates it: on a fresh one-block
engine, `bestFit(0, Job(id=1, time=1, size=5))` succeeds and leaves block
`1` in *both* lists — `bestFit` restores the pre-sort `freeList` object,
so the removal `firstFit` performed on the temporary sorted list is lost. -/
theorem bestFit_breaks_free_busy_partition :
    ((Alloc.init [10]).bestFit 0 ⟨1, 1, 5⟩).map
        (fun p => (p.1, decide (1 ∈ p.2.freeList), decide (1 ∈ p.2.busyList)))
      = some (true, true, true) := by decide

/-- **C2** (code-bug evaluation).  The claim says statistics on a freshly
constructed engine (no placement, no `deallocate` ever) return all ratios
as `0` without failing.  The code instead raises `AttributeError`:
`self.totalTicks` is first assigned inside `deallocate`, so `calcStats`
on a fresh engine reads an unset attribute (`none` in the model). -/
theorem calcStats_fresh_engine_raises :
    (Alloc.init [10]).calcStats = none := by decide

/-- **C3** (code-bug evaluation).  The claim says two successive
`calcStats` calls with no intervening engine mutation return the same
map.  On `Alloc([10])` after `deallocate(0)` they differ: the first
call's `defaultdict` reads insert block `1` with count `0` into
`blockUsage`, so only the second call's `sortedUsage` is nonempty and
only the second result maps `"Least Used Block"` (to the raw id `1`). -/
theorem calcStats_twice_differs :
    ((Alloc.init [10]).deallocate 0).map (fun s1 =>
      (s1.calcStats).map (fun p1 =>
        (p1.2.calcStats).map (fun p2 =>
          (decide (p1.1 = p2.1), dGet p1.1 "Least Used Block", dGet p2.1 "Least Used Block"))))
      = some (some (some (false, none, some (StatVal.idVal 1)))) := by decide

/-- **C4 counterexample**.  The claim says the heavily-used threshold is
`max(1, round(m))` for `m` the mean usage of used blocks.  After the run
below the usage counts are `[2, 1]`, so `m = 3/2`: the code's threshold
(`max(1, int(m))`, truncation) is `1`, not `max(1, round(m)) = 2`, and
block `2` with count `1` is classified heavily-used although the claim's
threshold would make it lightly-used. -/
theorem heavy_threshold_not_round_mean :
    (runCons (Alloc.init [10, 10])
      [Op.ff 0 ⟨1, 0, 10⟩, Op.dealloc 0, Op.ff 0 ⟨2, 9, 10⟩, Op.ff 0 ⟨3, 9, 10⟩]).map
        (fun p =>
          ((Alloc.calcStorageUtilization p.1).1.heavilyUsedThreshold,
           max 1 (roundNearest (Alloc.calcStorageUtilization p.1).1.meanUsage),
           decide ((2, 1) ∈ (Alloc.calcStorageUtilization p.1).1.heavilyUsedBlocks),
           decide ((2, 1) ∈ (Alloc.calcStorageUtilization p.1).1.lightlyUsedBlocks)))
      = some (1, 2, true, false) := by decide

/-- **C5 counterexample**.  The claim says `bestFit` leaves the
persistent free list unchanged *apart from removing the chosen block*.
On `Alloc([10, 5])` with a job of size `3`, `bestFit` correctly chooses
block `2` (smallest fit), but the resulting `freeList` is `[1, 2]`, not
`[1]`: the chosen block was never removed from the persistent free list
(`List.erase [1, 2] 2 = [1]` is what the claim requires). -/
theorem bestFit_keeps_chosen_in_freeList :
    ((Alloc.init [10, 5]).bestFit 0 ⟨1, 1, 3⟩).map
        (fun p => (p.1, p.2.busyList, p.2.freeList))
      = some (true, [2], [1, 2])
    ∧ ([1, 2] : List ℕ) ≠ List.erase [1, 2] 2 := by decide

lemma mem_insByKey (key : α → ℤ) (p x : α) (l : List α) :
    x ∈ insByKey key p l ↔ x = p ∨ x ∈ l := by
  induction l with
  | nil => simp [insByKey]
  | cons q qs ih =>
    by_cases h : key p ≤ key q
    · simp [insByKey, h, List.mem_cons]
    · simp only [insByKey, if_neg h, List.mem_cons, ih]
      tauto

lemma mem_sortByKey (key : α → ℤ) (x : α) (l : List α) :
    x ∈ sortByKey key l ↔ x ∈ l := by
  induction l with
  | nil => simp [sortByKey]
  | cons p ps ih => simp [sortByKey, mem_insByKey, ih, List.mem_cons]

lemma firstFitAux_append (s : Alloc) (t : ℤ) (job : Job) (i : ℕ) (b : Block)
    (l1 l2 : List ℕ)
    (h1 : ∀ j ∈ l1, ∃ c, dGet s.ram j = some c ∧ c.size < job.size)
    (hb : dGet s.ram i = some b) (hfit : job.size ≤ b.size) :
    s.firstFitAux t job (l1 ++ i :: l2) = some (true, s.placeAt t job i b) := by
  induction l1 with
  | nil => simp [Alloc.firstFitAux, hb, hfit]
  | cons j l1 ih =>
    obtain ⟨c, hc, hlt⟩ := h1 j (by simp)
    simp only [List.cons_append, Alloc.firstFitAux, hc]
    rw [if_neg (not_le.mpr hlt)]
    exact ih (fun j hj => h1 j (by simp [hj]))

lemma firstFitAux_no_fit (s : Alloc) (t : ℤ) (job : Job) :
    ∀ l : List ℕ, (∀ j ∈ l, ∃ c, dGet s.ram j = some c ∧ c.size < job.size) →
      s.firstFitAux t job l = some (false, s)
  | [], _ => by simp [Alloc.firstFitAux]
  | j :: l, h => by
    obtain ⟨c, hc, hlt⟩ := h j (by simp)
    simp only [Alloc.firstFitAux, hc]
    rw [if_neg (not_le.mpr hlt)]
    exact firstFitAux_no_fit s t job l (fun j hj => h j (by simp [hj]))

lemma buildPairs_eq_map (s : Alloc) (l : List ℕ)
    (hall : ∀ j ∈ l, (dGet s.ram j).isSome = true) :
    buildPairs s.ram l = some (l.map (fun j => (blockSizeD s j, j))) := by
  induction l with
  | nil => simp [buildPairs]
  | cons i is ih =>
    obtain ⟨b, hb⟩ := Option.isSome_iff_exists.mp (hall i (by simp))
    simp [buildPairs, hb, ih (fun j hj => hall j (by simp [hj])), blockSizeD]

/-- **C6**.  `firstFit` scans the free list in ascending block-id order
and places the job into the free block of lowest id whose capacity fits,
regardless of capacity beyond that; the whole resulting state is the
deterministic `placeAt` update at that block.  (The ascending scan order
is the CPython iteration order of the id set `freeList`, a hypothesis
here.) -/
theorem firstFit_places_lowest_fitting_id (s : Alloc) (t : ℤ) (job : Job) (i : ℕ) (b : Block)
    (hsort : List.Pairwise (· < ·) s.freeList)
    (hall : ∀ j ∈ s.freeList, (dGet s.ram j).isSome = true)
    (hmem : i ∈ s.freeList)
    (hb : dGet s.ram i = some b) (hfit : job.size ≤ b.size)
    (hmin : ∀ j ∈ s.freeList, fitsB s job j = true → i ≤ j) :
    s.firstFit t job = some (true, s.placeAt t job i b) := by
  obtain ⟨l1, l2, hl⟩ := List.append_of_mem hmem
  have hlt : ∀ j ∈ l1, j < i := by
    rw [hl] at hsort
    have h := (List.pairwise_append.mp hsort).2.2
    exact fun j hj => h j hj i (by simp)
  have h1 : ∀ j ∈ l1, ∃ c, dGet s.ram j = some c ∧ c.size < job.size := by
    intro j hj
    have hjf : j ∈ s.freeList := by rw [hl]; simp [hj]
    obtain ⟨c, hc⟩ := Option.isSome_iff_exists.mp (hall j hjf)
    refine ⟨c, hc, ?_⟩
    by_contra hge
    push_neg at hge
    have hfits : fitsB s job j = true := by simp [fitsB, hc, hge]
    have h2 := hmin j hjf hfits
    have h3 := hlt j hj
    omega
  rw [Alloc.firstFit, hl]
  exact firstFitAux_append s t job i b l1 l2 h1 hb hfit

/-- Witness for the first-fit lowest-id theorem: on `Alloc([3, 10])` a
job of size `5` skips the too-small block `1` and lands in block `2`. -/
theorem firstFit_places_lowest_fitting_id_witness :
    (List.Pairwise (· < ·) (Alloc.init [3, 10]).freeList
      ∧ (∀ j ∈ (Alloc.init [3, 10]).freeList, (dGet (Alloc.init [3, 10]).ram j).isSome = true)
      ∧ 2 ∈ (Alloc.init [3, 10]).freeList
      ∧ dGet (Alloc.init [3, 10]).ram 2 = some (Block.mk 2 10 (-1) false (-1))
      ∧ (Job.mk 1 2 5).size ≤ (Block.mk 2 10 (-1) false (-1)).size
      ∧ (∀ j ∈ (Alloc.init [3, 10]).freeList,
          fitsB (Alloc.init [3, 10]) (Job.mk 1 2 5) j = true → 2 ≤ j))
    ∧ (Alloc.init [3, 10]).firstFit 0 (Job.mk 1 2 5)
        = some (true, (Alloc.init [3, 10]).placeAt 0 (Job.mk 1 2 5) 2 (Block.mk 2 10 (-1) false (-1))) :=
  ⟨⟨by decide, by decide, by decide, by decide, by decide, by decide⟩,
   firstFit_places_lowest_fitting_id (Alloc.init [3, 10]) 0 (Job.mk 1 2 5) 2
     (Block.mk 2 10 (-1) false (-1)) (by decide) (by decide) (by decide) (by decide)
     (by decide) (by decide)⟩

lemma bestFit_eq (s : Alloc) (t : ℤ) (job : Job) (pairs : List (ℤ × ℕ))
    (hbp : buildPairs s.ram s.freeList = some pairs) :
    s.bestFit t job =
      match Alloc.firstFitAux
          { s with freeList := (sortByKey (fun p => p.1) pairs).map (fun p => p.2) } t job
          ((sortByKey (fun p => p.1) pairs).map (fun p => p.2)) with
      | none => none
      | some (res, s1) => some (res, { s1 with freeList := s.freeList }) := by
  unfold Alloc.bestFit
  rw [hbp]

/-- **C8**.  When no free block fits the job, both placement policies
return `false` and the state is returned entirely unchanged — free/busy
partition, job map, usage counters, and all cumulative totals. -/
theorem placement_failure_no_side_effects (s : Alloc) (t : ℤ) (job : Job)
    (hall : ∀ j ∈ s.freeList, (dGet s.ram j).isSome = true)
    (hnofit : ∀ j ∈ s.freeList, fitsB s job j = false) :
    s.firstFit t job = some (false, s) ∧ s.bestFit t job = some (false, s) := by
  have hlt : ∀ j ∈ s.freeList, ∃ c, dGet s.ram j = some c ∧ c.size < job.size := by
    intro j hj
    obtain ⟨c, hc⟩ := Option.isSome_iff_exists.mp (hall j hj)
    refine ⟨c, hc, ?_⟩
    have h := hnofit j hj
    simp [fitsB, hc] at h
    omega
  refine ⟨by rw [Alloc.firstFit]; exact firstFitAux_no_fit s t job s.freeList hlt, ?_⟩
  rw [bestFit_eq s t job _ (buildPairs_eq_map s s.freeList hall)]
  have hmem' : ∀ j ∈ (sortByKey (fun p => p.1)
      (s.freeList.map fun j => (blockSizeD s j, j))).map (fun p => p.2), j ∈ s.freeList := by
    intro j hj
    simp only [List.mem_map] at hj
    obtain ⟨p, hp, rfl⟩ := hj
    rw [mem_sortByKey] at hp
    simp only [List.mem_map] at hp
    obtain ⟨j', hj', rfl⟩ := hp
    exact hj'
  have haux := firstFitAux_no_fit
      { s with freeList := (sortByKey (fun p => p.1)
          (s.freeList.map fun j => (blockSizeD s j, j))).map (fun p => p.2) }
      t job
      ((sortByKey (fun p => p.1) (s.freeList.map fun j => (blockSizeD s j, j))).map (fun p => p.2))
      (fun j hj => hlt j (hmem' j hj))
  rw [haux]

lemma insByKey_pairwise (key : α → ℤ) (tag : α → ℕ) (p : α) (l : List α)
    (hl : List.Pairwise (fun a b => key a < key b ∨ (key a = key b ∧ tag a < tag b)) l)
    (hp : ∀ q ∈ l, tag p < tag q) :
    List.Pairwise (fun a b => key a < key b ∨ (key a = key b ∧ tag a < tag b))
      (insByKey key p l) := by
  induction l with
  | nil => simp [insByKey]
  | cons q qs ih =>
    rw [List.pairwise_cons] at hl
    obtain ⟨hq, hqs⟩ := hl
    by_cases h : key p ≤ key q
    · simp only [insByKey, if_pos h]
      refine List.pairwise_cons.mpr ⟨?_, List.pairwise_cons.mpr ⟨hq, hqs⟩⟩
      intro x hx
      rcases List.mem_cons.mp hx with rfl | hx
      · rcases lt_or_eq_of_le h with h' | h'
        · exact Or.inl h'
        · exact Or.inr ⟨h', hp x (by simp)⟩
      · have hqx := hq x hx
        have hkqx : key q ≤ key x := by rcases hqx with h1 | ⟨h1, _⟩ <;> omega
        rcases lt_or_eq_of_le (le_trans h hkqx) with h' | h'
        · exact Or.inl h'
        · exact Or.inr ⟨h', hp x (by simp [hx])⟩
    · simp only [insByKey, if_neg h]
      refine List.pairwise_cons.mpr ⟨?_, ih hqs (fun x hx => hp x (by simp [hx]))⟩
      intro x hx
      rcases (mem_insByKey key p x qs).mp hx with rfl | hx
      · exact Or.inl (by omega)
      · exact hq x hx

lemma sortByKey_pairwise (key : α → ℤ) (tag : α → ℕ) (l : List α)
    (hl : List.Pairwise (fun a b => tag a < tag b) l) :
    List.Pairwise (fun a b => key a < key b ∨ (key a = key b ∧ tag a < tag b))
      (sortByKey key l) := by
  induction l with
  | nil => simp [sortByKey]
  | cons p ps ih =>
    rw [List.pairwise_cons] at hl
    obtain ⟨hp, hps⟩ := hl
    simp only [sortByKey]
    exact insByKey_pairwise key tag p _ (ih hps)
      (fun q hq => hp q ((mem_sortByKey key q ps).mp hq))

/-- **C5 amended**.  `bestFit` places the job into the free block of
minimum capacity among those that fit, ties broken by lowest block id
(the stable sort of the id-ascending free list by size), and the
persistent free list comes back *entirely unchanged*: the chosen block is
not removed from it (only `busyList`, the block fields, and the counters
change), because the removal happened on the discarded sorted copy. -/
theorem bestFit_places_min_size_fit (s : Alloc) (t : ℤ) (job : Job) (i : ℕ) (b : Block)
    (hsort : List.Pairwise (· < ·) s.freeList)
    (hall : ∀ j ∈ s.freeList, (dGet s.ram j).isSome = true)
    (hmem : i ∈ s.freeList) (hb : dGet s.ram i = some b) (hfit : job.size ≤ b.size)
    (hmin : ∀ j ∈ s.freeList, fitsB s job j = true →
      b.size < blockSizeD s j ∨ (b.size = blockSizeD s j ∧ i ≤ j)) :
    s.bestFit t job = some (true, { s.placeAt t job i b with freeList := s.freeList }) := by
  rw [bestFit_eq s t job _ (buildPairs_eq_map s s.freeList hall)]
  have hpair_mem : ∀ x ∈ s.freeList.map (fun j => (blockSizeD s j, j)),
      x.2 ∈ s.freeList ∧ x.1 = blockSizeD s x.2 := by
    intro x hx
    simp only [List.mem_map] at hx
    obtain ⟨j, hj, rfl⟩ := hx
    exact ⟨hj, rfl⟩
  have hsorted := sortByKey_pairwise (fun p => p.1) (fun p => p.2)
    (s.freeList.map (fun j => (blockSizeD s j, j)))
    ((List.pairwise_map).mpr hsort)
  have hbsize : blockSizeD s i = b.size := by simp [blockSizeD, hb]
  have hmem2 : ((b.size, i) : ℤ × ℕ)
      ∈ sortByKey (fun p => p.1) (s.freeList.map (fun j => (blockSizeD s j, j))) := by
    rw [mem_sortByKey]
    simp only [List.mem_map]
    exact ⟨i, hmem, by rw [hbsize]⟩
  obtain ⟨m1, m2, hspl⟩ := List.append_of_mem hmem2
  have hm1 : ∀ x ∈ m1, x.1 < b.size ∨ (x.1 = b.size ∧ x.2 < i) := by
    rw [hspl] at hsorted
    have h := (List.pairwise_append.mp hsorted).2.2
    intro x hx
    exact h x hx (b.size, i) (by simp)
  rw [hspl, List.map_append, List.map_cons]
  have h1 : ∀ j ∈ m1.map (fun p => p.2), ∃ c, dGet s.ram j = some c ∧ c.size < job.size := by
    intro j hj
    simp only [List.mem_map] at hj
    obtain ⟨x, hx, rfl⟩ := hj
    have hxp : x ∈ s.freeList.map (fun j => (blockSizeD s j, j)) := by
      have hx2 : x ∈ sortByKey (fun p => p.1) (s.freeList.map (fun j => (blockSizeD s j, j))) := by
        rw [hspl]; simp [hx]
      rwa [mem_sortByKey] at hx2
    obtain ⟨hxf, hxs⟩ := hpair_mem x hxp
    obtain ⟨c, hc⟩ := Option.isSome_iff_exists.mp (hall x.2 hxf)
    refine ⟨c, hc, ?_⟩
    by_contra hge
    push_neg at hge
    have hfits : fitsB s job x.2 = true := by simp [fitsB, hc, hge]
    have h2 := hmin x.2 hxf hfits
    have h3 := hm1 x hx
    have hcs : blockSizeD s x.2 = c.size := by simp [blockSizeD, hc]
    rw [hcs] at hxs h2
    rcases h2 with h2a | ⟨h2a, h2b⟩ <;> rcases h3 with h3a | ⟨h3a, h3b⟩ <;> omega
  have haux := firstFitAux_append
      { s with freeList := m1.map (fun p => p.2) ++ i :: m2.map (fun p => p.2) } t job i b
      (m1.map (fun p => p.2)) (m2.map (fun p => p.2)) h1 hb hfit
  rw [haux]
  rfl

/-- Witness for the amended best-fit theorem: on `Alloc([10, 5])` a job
of size `3` goes into block `2` (size `5`, the smallest fit) and the free
list comes back unchanged. -/
theorem bestFit_places_min_size_fit_witness :
    (List.Pairwise (· < ·) (Alloc.init [10, 5]).freeList
      ∧ (∀ j ∈ (Alloc.init [10, 5]).freeList, (dGet (Alloc.init [10, 5]).ram j).isSome = true)
      ∧ 2 ∈ (Alloc.init [10, 5]).freeList
      ∧ dGet (Alloc.init [10, 5]).ram 2 = some (Block.mk 2 5 (-1) false (-1))
      ∧ (Job.mk 1 1 3).size ≤ (Block.mk 2 5 (-1) false (-1)).size
      ∧ (∀ j ∈ (Alloc.init [10, 5]).freeList, fitsB (Alloc.init [10, 5]) (Job.mk 1 1 3) j = true →
          (Block.mk 2 5 (-1) false (-1)).size < blockSizeD (Alloc.init [10, 5]) j
            ∨ ((Block.mk 2 5 (-1) false (-1)).size = blockSizeD (Alloc.init [10, 5]) j ∧ 2 ≤ j)))
    ∧ (Alloc.init [10, 5]).bestFit 0 (Job.mk 1 1 3)
        = some (true, { (Alloc.init [10, 5]).placeAt 0 (Job.mk 1 1 3) 2 (Block.mk 2 5 (-1) false (-1)) with
                        freeList := (Alloc.init [10, 5]).freeList }) :=
  ⟨⟨by decide, by decide, by decide, by decide, by decide, by decide⟩,
   bestFit_places_min_size_fit (Alloc.init [10, 5]) 0 (Job.mk 1 1 3) 2
     (Block.mk 2 5 (-1) false (-1)) (by decide) (by decide) (by decide) (by decide)
     (by decide) (by decide)⟩

lemma dGet_append_of_some [DecidableEq α] (m m' : List (α × β)) (k : α) (v : β)
    (h : dGet m k = some v) : dGet (m ++ m') k = some v := by
  induction m with
  | nil => simp [dGet] at h
  | cons p ps ih =>
    rw [dGet] at h
    by_cases hk : k = p.1
    · simpa [dGet, hk] using h
    · rw [List.cons_append, dGet, if_neg hk]
      exact ih (by rwa [if_neg hk] at h)

lemma dGet_append_of_none [DecidableEq α] (m m' : List (α × β)) (k : α)
    (h : dGet m k = none) : dGet (m ++ m') k = dGet m' k := by
  induction m with
  | nil => simp
  | cons p ps ih =>
    rw [dGet] at h
    by_cases hk : k = p.1
    · simp [hk] at h
    · rw [List.cons_append, dGet, if_neg hk]
      exact ih (by rwa [if_neg hk] at h)

lemma duRead_fst (du : List (ℕ × ℕ)) (k : ℕ) : (duRead du k).1 = duValue du k := by
  rw [duRead, duValue]
  cases h : dGet du k <;> simp [h]

lemma duValue_duRead (du : List (ℕ × ℕ)) (k j : ℕ) :
    duValue (duRead du k).2 j = duValue du j := by
  rw [duRead]
  cases h : dGet du k with
  | some c => rfl
  | none =>
    rw [duValue, duValue]
    by_cases hj : j = k
    · subst hj
      rw [h, dGet_append_of_none du [(j, 0)] j h]
      simp [dGet]
    · cases h' : dGet du j with
      | some v => rw [dGet_append_of_some du [(k, 0)] j v h']
      | none =>
        rw [dGet_append_of_none du [(k, 0)] j h']
        simp [dGet, hj]

lemma usageScan_spec : ∀ (l : List ℕ) (du : List (ℕ × ℕ)),
    (usageScan l du).1 = l.filter (fun i => duValue du i == 0)
      ∧ (usageScan l du).2.1
          = (l.filter (fun i => duValue du i != 0)).map (fun i => (i, duValue du i))
  | [], du => by simp [usageScan]
  | i :: is, du => by
    obtain ⟨ih1, ih2⟩ := usageScan_spec is (duRead du i).2
    have hc1 : is.filter (fun j => duValue (duRead du i).2 j == 0)
        = is.filter (fun j => duValue du j == 0) :=
      List.filter_congr (fun j _ => by rw [duValue_duRead])
    have hc2 : is.filter (fun j => duValue (duRead du i).2 j != 0)
        = is.filter (fun j => duValue du j != 0) :=
      List.filter_congr (fun j _ => by rw [duValue_duRead])
    have hc3 : ∀ m : List ℕ, m.map (fun j => (j, duValue (duRead du i).2 j))
        = m.map (fun j => (j, duValue du j)) :=
      fun m => List.map_congr_left (fun j _ => by rw [duValue_duRead])
    simp only [usageScan, duRead_fst]
    by_cases h : duValue du i = 0
    · constructor
      · rw [if_pos h, ih1, hc1, List.filter_cons, if_pos (by simp [h])]
      · rw [if_pos h, ih2, hc2, hc3, List.filter_cons, if_neg (by simp [h])]
    · constructor
      · rw [if_neg h, ih1, hc1, List.filter_cons, if_neg (by simp [h])]
      · rw [if_neg h, ih2, hc2, hc3, List.filter_cons, if_pos (by simp [h]), List.map_cons]

lemma mem_classifyLoop_heavy (thr : ℤ) : ∀ (l : List (ℕ × ℕ)) (p : ℕ × ℕ),
    p ∈ (classifyLoop thr l).2 ↔ p ∈ l ∧ thr ≤ (p.2 : ℤ)
  | [], p => by simp [classifyLoop]
  | q :: l, p => by
    simp only [classifyLoop]
    by_cases h : thr ≤ (q.2 : ℤ)
    · rw [if_pos h]
      simp only [List.mem_cons, mem_classifyLoop_heavy thr l p]
      constructor
      · rintro (rfl | ⟨hp, hle⟩)
        · exact ⟨Or.inl rfl, h⟩
        · exact ⟨Or.inr hp, hle⟩
      · rintro ⟨rfl | hp, hle⟩
        · exact Or.inl rfl
        · exact Or.inr ⟨hp, hle⟩
    · rw [if_neg h]
      simp only [List.mem_cons, mem_classifyLoop_heavy thr l p]
      constructor
      · rintro ⟨hp, hle⟩
        exact ⟨Or.inr hp, hle⟩
      · rintro ⟨rfl | hp, hle⟩
        · exact absurd hle h
        · exact ⟨hp, hle⟩

lemma mem_classifyLoop_light (thr : ℤ) : ∀ (l : List (ℕ × ℕ)) (p : ℕ × ℕ),
    p ∈ (classifyLoop thr l).1 ↔ p ∈ l ∧ (p.2 : ℤ) < thr
  | [], p => by simp [classifyLoop]
  | q :: l, p => by
    simp only [classifyLoop]
    by_cases h : thr ≤ (q.2 : ℤ)
    · rw [if_pos h]
      simp only [List.mem_cons, mem_classifyLoop_light thr l p]
      constructor
      · rintro ⟨hp, hlt⟩
        exact ⟨Or.inr hp, hlt⟩
      · rintro ⟨rfl | hp, hlt⟩
        · omega
        · exact ⟨hp, hlt⟩
    · rw [if_neg h]
      simp only [List.mem_cons, mem_classifyLoop_light thr l p]
      constructor
      · rintro (rfl | ⟨hp, hlt⟩)
        · exact ⟨Or.inl rfl, by omega⟩
        · exact ⟨Or.inr hp, hlt⟩
      · rintro ⟨rfl | hp, hlt⟩
        · exact Or.inl rfl
        · exact Or.inr ⟨hp, hlt⟩

/-- **C4 amended**.  For every engine state with at least one used
block, the heavily-used threshold computed by
`calcStorageUtilization` equals `max(1, trunc(m))` — Python's
`max(1, int(meanUsage))`, truncation, *not* rounding — where `m` is the
mean of the per-block usage counts over the blocks with at least one use;
and a used block is classified heavily-used iff its count is `≥` that
threshold, else lightly-used. -/
theorem heavy_threshold_eq_trunc_mean (s : Alloc) (hused : usedIds s ≠ []) :
    (Alloc.calcStorageUtilization s).1.heavilyUsedThreshold
        = max 1 (ratTrunc ((((usedIds s).map (duValue s.blockUsage)).sum : ℚ)
            / (((usedIds s).length : ℕ) : ℚ)))
    ∧ (∀ i ∈ usedIds s,
        ((i, duValue s.blockUsage i) ∈ (Alloc.calcStorageUtilization s).1.heavilyUsedBlocks
          ↔ (Alloc.calcStorageUtilization s).1.heavilyUsedThreshold
              ≤ (duValue s.blockUsage i : ℤ)))
    ∧ (∀ i ∈ usedIds s,
        ((i, duValue s.blockUsage i) ∈ (Alloc.calcStorageUtilization s).1.lightlyUsedBlocks
          ↔ ((duValue s.blockUsage i : ℤ)
              < (Alloc.calcStorageUtilization s).1.heavilyUsedThreshold))) := by
  have hscan' : (usageScan (s.ram.map Prod.fst) s.blockUsage).2.1
      = (usedIds s).map (fun i => (i, duValue s.blockUsage i)) :=
    (usageScan_spec (s.ram.map Prod.fst) s.blockUsage).2
  have hmapne : ¬ ((usedIds s).map (fun i => (i, duValue s.blockUsage i))).isEmpty = true := by
    simp only [List.isEmpty_iff, List.map_eq_nil_iff]
    exact hused
  have hpair : ∀ i, ((i, duValue s.blockUsage i)
      ∈ (usedIds s).map (fun j => (j, duValue s.blockUsage j)) ↔ i ∈ usedIds s) := by
    intro i
    constructor
    · intro hi
      simp only [List.mem_map] at hi
      obtain ⟨j, hj, heq⟩ := hi
      have hji := congrArg Prod.fst heq
      simp only at hji
      rwa [hji] at hj
    · intro hi
      exact List.mem_map_of_mem _ hi
  refine ⟨?_, ?_, ?_⟩
  · simp only [Alloc.calcStorageUtilization, hscan']
    rw [if_neg hmapne, if_neg hmapne]
    simp only [List.map_map, List.length_map]
    rfl
  · intro i hi
    simp only [Alloc.calcStorageUtilization, hscan', mem_classifyLoop_heavy, hpair i, hi,
      true_and]
  · intro i hi
    simp only [Alloc.calcStorageUtilization, hscan', mem_classifyLoop_light, hpair i, hi,
      true_and]

/-- Witness for the truncated-mean threshold theorem, at a one-block
state whose single block has usage count `2`: the threshold is
`max(1, trunc(2)) = 2` and the block is heavily-used. -/
theorem heavy_threshold_eq_trunc_mean_witness :
    usedIds usageWitnessState ≠ []
    ∧ ((Alloc.calcStorageUtilization usageWitnessState).1.heavilyUsedThreshold
        = max 1 (ratTrunc ((((usedIds usageWitnessState).map (duValue usageWitnessState.blockUsage)).sum : ℚ)
            / (((usedIds usageWitnessState).length : ℕ) : ℚ)))
      ∧ (∀ i ∈ usedIds usageWitnessState,
          ((i, duValue usageWitnessState.blockUsage i)
              ∈ (Alloc.calcStorageUtilization usageWitnessState).1.heavilyUsedBlocks
            ↔ (Alloc.calcStorageUtilization usageWitnessState).1.heavilyUsedThreshold
                ≤ (duValue usageWitnessState.blockUsage i : ℤ)))
      ∧ (∀ i ∈ usedIds usageWitnessState,
          ((i, duValue usageWitnessState.blockUsage i)
              ∈ (Alloc.calcStorageUtilization usageWitnessState).1.lightlyUsedBlocks
            ↔ ((duValue usageWitnessState.blockUsage i : ℤ)
                < (Alloc.calcStorageUtilization usageWitnessState).1.heavilyUsedThreshold)))) :=
  ⟨by decide, heavy_threshold_eq_trunc_mean usageWitnessState (by decide)⟩

lemma dGet_dSet_self [DecidableEq α] (m : List (α × β)) (k : α) (v : β) :
    dGet (dSet m k v) k = some v := by
  induction m with
  | nil => simp [dGet, dSet]
  | cons p ps ih =>
    obtain ⟨a, b⟩ := p
    rw [dSet]
    by_cases h : k = a
    · rw [if_pos h, dGet, if_pos rfl]
    · rw [if_neg h, dGet, if_neg h]
      exact ih

lemma dGet_dSet_ne [DecidableEq α] (m : List (α × β)) (k k' : α) (v : β) (h : k' ≠ k) :
    dGet (dSet m k v) k' = dGet m k' := by
  induction m with
  | nil => simp [dGet, dSet, h]
  | cons p ps ih =>
    obtain ⟨a, b⟩ := p
    rw [dSet]
    by_cases hk : k = a
    · subst hk
      rw [if_pos rfl, dGet, if_neg h, dGet, if_neg h]
    · rw [if_neg hk, dGet, dGet]
      by_cases hk' : k' = a
      · rw [if_pos hk', if_pos hk']
      · rw [if_neg hk', if_neg hk']
        exact ih

lemma mem_setAdd (l : List ℕ) (i j : ℕ) : j ∈ setAdd l i ↔ j = i ∨ j ∈ l := by
  induction l with
  | nil => simp [setAdd]
  | cons a l ih =>
    rw [setAdd]
    by_cases h1 : i < a
    · rw [if_pos h1]
      simp [List.mem_cons]
    · rw [if_neg h1]
      by_cases h2 : i = a
      · rw [if_pos h2]
        subst h2
        simp [List.mem_cons]
      · rw [if_neg h2]
        simp only [List.mem_cons, ih]
        tauto

lemma okB_iff (s : Alloc) (i : ℕ) :
    okB s i = true ↔ ∃ b, dGet s.ram i = some b ∧ ∃ job, dGet s.jobMap b.jid = some job := by
  rw [okB]
  cases h : dGet s.ram i <;> simp [Option.isSome_iff_exists]

lemma okB_congr (s s2 : Alloc) (j : ℕ)
    (hr : dGet s2.ram j = dGet s.ram j) (hm : s2.jobMap = s.jobMap) :
    okB s2 j = okB s j := by
  rw [okB, okB, hr, hm]

lemma expiredB_congr (s s2 : Alloc) (t : ℤ) (j : ℕ)
    (hr : dGet s2.ram j = dGet s.ram j) (hm : s2.jobMap = s.jobMap) :
    expiredB s2 t j = expiredB s t j := by
  rw [expiredB, expiredB, hr, hm]

lemma expiredB_eq (s : Alloc) (t : ℤ) (i : ℕ) (b : Block) (job : Job)
    (hb : dGet s.ram i = some b) (hj : dGet s.jobMap b.jid = some job) :
    expiredB s t i = decide (job.time ≤ t - b.jobStart) := by
  simp [expiredB, hb, hj]

/-- Characterisation of one busy-list pass of `deallocate` on a
duplicate-free id list whose blocks and jobs are all present: it
succeeds, appends exactly the expired ids to `toRemove` in scan order,
clears exactly the expired blocks, adds exactly the expired ids to the
free set, and touches nothing else. -/
lemma deallocAux_spec (t : ℤ) : ∀ (l : List ℕ) (s : Alloc) (acc : List ℕ),
    l.Nodup → (∀ i ∈ l, okB s i = true) →
    ∃ s1, Alloc.deallocAux t l s acc = some (s1, acc ++ l.filter (expiredB s t))
      ∧ s1.busyList = s.busyList
      ∧ s1.jobMap = s.jobMap
      ∧ s1.totalTicks = s.totalTicks
      ∧ s1.totalFragmentation = s.totalFragmentation
      ∧ s1.totalJobMemory = s.totalJobMemory
      ∧ (∀ j, j ∉ l → dGet s1.ram j = dGet s.ram j)
      ∧ (∀ j ∈ l, expiredB s t j = true → dGet s1.ram j = (dGet s.ram j).map Block.deallocate)
      ∧ (∀ j ∈ l, expiredB s t j = false → dGet s1.ram j = dGet s.ram j)
      ∧ (∀ j, j ∈ s1.freeList ↔ j ∈ s.freeList ∨ (j ∈ l ∧ expiredB s t j = true))
  | [], s, acc, _, _ => by
    refine ⟨s, ?_, rfl, rfl, rfl, rfl, rfl, fun j _ => rfl, by simp, by simp, by simp⟩
    simp [Alloc.deallocAux]
  | i :: l, s, acc, hnd, hok => by
    rw [List.nodup_cons] at hnd
    obtain ⟨hil, hnd'⟩ := hnd
    obtain ⟨b, hb, job, hj⟩ := (okB_iff s i).mp (hok i (by simp))
    have hexp : expiredB s t i = decide (job.time ≤ t - b.jobStart) := expiredB_eq s t i b job hb hj
    simp only [Alloc.deallocAux, hb, hj]
    by_cases hcond : job.time ≤ t - b.jobStart
    · rw [if_pos hcond]
      set s2 : Alloc := { s with ram := dSet s.ram i b.deallocate,
                                 freeList := setAdd s.freeList i } with hs2
      have hram2 : ∀ j, j ≠ i → dGet s2.ram j = dGet s.ram j :=
        fun j hji => dGet_dSet_ne s.ram i j b.deallocate hji
      have hok2 : ∀ j ∈ l, okB s2 j = true := by
        intro j hjl
        rw [okB_congr s s2 j (hram2 j (fun he => hil (he ▸ hjl))) rfl]
        exact hok j (by simp [hjl])
      have hexp2 : ∀ j ∈ l, expiredB s2 t j = expiredB s t j := by
        intro j hjl
        exact expiredB_congr s s2 t j (hram2 j (fun he => hil (he ▸ hjl))) rfl
      obtain ⟨s1, heq, hbusy, hmap, htt, hfr, hjm, hout, hexpd, hkeep, hfree⟩ :=
        deallocAux_spec t l s2 (acc ++ [i]) hnd' hok2
      have hfilter : l.filter (expiredB s2 t) = l.filter (expiredB s t) :=
        List.filter_congr (fun j hjl => hexp2 j hjl)
      refine ⟨s1, ?_, hbusy, hmap, htt, hfr, hjm, ?_, ?_, ?_, ?_⟩
      · rw [heq, hfilter, List.filter_cons, if_pos (by simp [hexp, hcond])]
        rw [List.append_assoc]
        rfl
      · intro j hjl
        have hji : j ≠ i := fun he => hjl (by simp [he])
        have hjl' : j ∉ l := fun he => hjl (by simp [he])
        rw [hout j hjl', hram2 j hji]
      · intro j hjl hje
        rcases List.mem_cons.mp hjl with rfl | hjl'
        · have h1 : dGet s1.ram j = dGet s2.ram j := hout j hil
          have h2 : dGet s2.ram j = some b.deallocate := by
            show dGet (dSet s.ram j b.deallocate) j = _
            exact dGet_dSet_self s.ram j b.deallocate
          rw [h1, h2, hb]
          rfl
        · rw [hexpd j hjl' (by rw [hexp2 j hjl', hje]), hram2 j (fun he => hil (he ▸ hjl'))]
      · intro j hjl hje
        rcases List.mem_cons.mp hjl with rfl | hjl'
        · rw [hexp] at hje
          simp [hcond] at hje
        · rw [hkeep j hjl' (by rw [hexp2 j hjl', hje]), hram2 j (fun he => hil (he ▸ hjl'))]
      · intro j
        rw [hfree j]
        have hfree2 : j ∈ s2.freeList ↔ j = i ∨ j ∈ s.freeList := mem_setAdd s.freeList i j
        rw [hfree2]
        by_cases hji : j = i
        · subst hji
          have hei : expiredB s t j = true := by simp [hexp, hcond]
          simp [List.mem_cons, hei]
        · by_cases hjl : j ∈ l
          · rw [hexp2 j hjl]
            simp [List.mem_cons, hji]
          · simp [List.mem_cons, hji, hjl]
    · rw [if_neg hcond]
      obtain ⟨s1, heq, hbusy, hmap, htt, hfr, hjm, hout, hexpd, hkeep, hfree⟩ :=
        deallocAux_spec t l s acc hnd' (fun j hjl => hok j (by simp [hjl]))
      refine ⟨s1, ?_, hbusy, hmap, htt, hfr, hjm, ?_, ?_, ?_, ?_⟩
      · rw [heq, List.filter_cons, if_neg (by simp [hexp, hcond])]
      · intro j hjl
        exact hout j (fun he => hjl (by simp [he]))
      · intro j hjl hje
        rcases List.mem_cons.mp hjl with rfl | hjl'
        · rw [hexp] at hje
          simp [hcond] at hje
        · exact hexpd j hjl' hje
      · intro j hjl hje
        rcases List.mem_cons.mp hjl with rfl | hjl'
        · exact hout j hil
        · exact hkeep j hjl' hje
      · intro j
        rw [hfree j]
        by_cases hji : j = i
        · subst hji
          have hei : expiredB s t j = false := by simp [hexp, hcond]
          simp [List.mem_cons, hei]
        · simp [List.mem_cons, hji]

lemma deallocAux_no_change (t : ℤ) : ∀ (l : List ℕ) (s : Alloc) (acc : List ℕ),
    (∀ i ∈ l, okB s i = true ∧ expiredB s t i = false) →
    Alloc.deallocAux t l s acc = some (s, acc)
  | [], s, acc, _ => rfl
  | i :: l, s, acc, h => by
    obtain ⟨hok, hexp⟩ := h i (by simp)
    obtain ⟨b, hb, job, hj⟩ := (okB_iff s i).mp hok
    have hcond : ¬ job.time ≤ t - b.jobStart := by
      rw [expiredB_eq s t i b job hb hj] at hexp
      simpa using hexp
    simp only [Alloc.deallocAux, hb, hj]
    rw [if_neg hcond]
    exact deallocAux_no_change t l s acc (fun j hj' => h j (by simp [hj']))

lemma setRemoveAll_cons_notmem (a : ℕ) : ∀ (rem l : List ℕ), a ∉ rem →
    setRemoveAll (a :: l) rem = (setRemoveAll l rem).map (fun l2 => a :: l2)
  | [], l, _ => rfl
  | r :: rs, l, h => by
    have hra : r ≠ a := fun he => h (by simp [he])
    rw [setRemoveAll, setRemoveAll]
    by_cases hrl : r ∈ l
    · rw [if_pos (List.mem_cons.mpr (Or.inr hrl)), if_pos hrl]
      have he : (a :: l).erase r = a :: l.erase r := by
        rw [List.erase_cons, if_neg (by simp [Ne.symm hra])]
      rw [he]
      exact setRemoveAll_cons_notmem a rs (l.erase r) (fun hx => h (by simp [hx]))
    · rw [if_neg (by simp [hra, hrl]), if_neg hrl]
      rfl

lemma setRemoveAll_filter (p : ℕ → Bool) : ∀ (l : List ℕ), l.Nodup →
    setRemoveAll l (l.filter p) = some (l.filter (fun x => !(p x)))
  | [], _ => rfl
  | a :: l, hnd => by
    rw [List.nodup_cons] at hnd
    obtain ⟨ha, hnd'⟩ := hnd
    rw [List.filter_cons, List.filter_cons]
    by_cases hp : p a = true
    · rw [if_pos (by simp [hp]), if_neg (by simp [hp])]
      rw [setRemoveAll, if_pos (List.mem_cons.mpr (Or.inl rfl))]
      have he : (a :: l).erase a = l := by
        rw [List.erase_cons, if_pos (by simp)]
      rw [he]
      exact setRemoveAll_filter p l hnd'
    · have hp' : p a = false := by simpa using hp
      rw [if_neg (by simp [hp']), if_pos (by simp [hp'])]
      rw [setRemoveAll_cons_notmem a (l.filter p) l (fun hx => ha (List.mem_of_mem_filter hx)),
        setRemoveAll_filter p l hnd']
      rfl

lemma deallocate_eq (s : Alloc) (t : ℤ) (s1 : Alloc) (rem : List ℕ)
    (h : Alloc.deallocAux t s.busyList { s with totalTicks := some t } [] = some (s1, rem)) :
    s.deallocate t = (setRemoveAll s1.busyList rem).map (fun bl => { s1 with busyList := bl }) := by
  simp only [Alloc.deallocate]
  rw [h]

/-- Characterisation of `Alloc.deallocate` on a well-formed state
(duplicate-free busy list, every busy block and its job present): it
succeeds; exactly the expired blocks move from busy to free and are
cleared; the tick is recorded; nothing else changes. -/
lemma deallocate_spec (s : Alloc) (t : ℤ)
    (hnd : s.busyList.Nodup)
    (hok : ∀ i ∈ s.busyList, okB s i = true) :
    ∃ s', s.deallocate t = some s'
      ∧ s'.busyList = s.busyList.filter (fun i => !(expiredB s t i))
      ∧ s'.jobMap = s.jobMap
      ∧ s'.totalTicks = some t
      ∧ s'.totalFragmentation = s.totalFragmentation
      ∧ s'.totalJobMemory = s.totalJobMemory
      ∧ (∀ j, j ∉ s.busyList → dGet s'.ram j = dGet s.ram j)
      ∧ (∀ j ∈ s.busyList, expiredB s t j = true →
            dGet s'.ram j = (dGet s.ram j).map Block.deallocate)
      ∧ (∀ j ∈ s.busyList, expiredB s t j = false → dGet s'.ram j = dGet s.ram j)
      ∧ (∀ j, j ∈ s'.freeList ↔ j ∈ s.freeList ∨ (j ∈ s.busyList ∧ expiredB s t j = true)) := by
  obtain ⟨s1, heq, hbusy, hmap, htt, hfr, hjm, hout, hexpd, hkeep, hfree⟩ :=
    deallocAux_spec t s.busyList { s with totalTicks := some t } [] hnd
      (fun i hi => hok i hi)
  have hE : expiredB { s with totalTicks := some t } t = expiredB s t := rfl
  rw [hE] at heq hexpd hkeep hfree
  have hbusy' : s1.busyList = s.busyList := hbusy
  refine ⟨{ s1 with busyList := s.busyList.filter (fun i => !(expiredB s t i)) },
    ?_, rfl, hmap, htt, hfr, hjm, fun j hj => hout j hj,
    fun j hj he => hexpd j hj he, fun j hj he => hkeep j hj he,
    fun j => hfree j⟩
  rw [deallocate_eq s t s1 _ heq, List.nil_append, hbusy',
    setRemoveAll_filter (expiredB s t) s.busyList hnd]
  rfl

/-- **C7**.  On a well-formed state, `deallocate(t)` frees a busy block
(clearing `jid` and `jobStart` via `Block.deallocate` and moving the id
from busy to free) exactly when `t - jobStart ≥ job.time`, and leaves the
block busy and untouched when `t - jobStart < job.time`.  The pass is a
snapshot-then-apply: each busy id's outcome depends only on its own block
and job in the pre-state, so no block is skipped or processed twice. -/
theorem deallocate_frees_iff_elapsed (s : Alloc) (t : ℤ) (idx : ℕ) (b : Block) (job : Job)
    (hnd : s.busyList.Nodup)
    (hok : ∀ i ∈ s.busyList, okB s i = true)
    (hmem : idx ∈ s.busyList)
    (hb : dGet s.ram idx = some b)
    (hj : dGet s.jobMap b.jid = some job)
    (s' : Alloc) (hd : s.deallocate t = some s') :
    (job.time ≤ t - b.jobStart →
        dGet s'.ram idx = some b.deallocate ∧ idx ∉ s'.busyList ∧ idx ∈ s'.freeList)
    ∧ (t - b.jobStart < job.time →
        dGet s'.ram idx = some b ∧ idx ∈ s'.busyList) := by
  obtain ⟨s'', heq, hbusy, hmap, htt, hfr, hjm, hout, hexpd, hkeep, hfree⟩ :=
    deallocate_spec s t hnd hok
  rw [hd] at heq
  have hss : s' = s'' := Option.some.inj heq
  subst hss
  have hE := expiredB_eq s t idx b job hb hj
  constructor
  · intro hcond
    have he : expiredB s t idx = true := by rw [hE]; simp [hcond]
    refine ⟨?_, ?_, ?_⟩
    · rw [hexpd idx hmem he, hb]
      rfl
    · rw [hbusy]
      intro hmm
      have h2 := List.mem_filter.mp hmm
      rw [he] at h2
      simp at h2
    · rw [hfree idx]
      exact Or.inr ⟨hmem, he⟩
  · intro hcond
    have he : expiredB s t idx = false := by rw [hE]; simp; omega
    refine ⟨?_, ?_⟩
    · rw [hkeep idx hmem he]
      exact hb
    · rw [hbusy]
      exact List.mem_filter.mpr ⟨hmem, by simp [he]⟩

/-- Witness for the deallocation theorem: in `busyWitnessState` the job
has time `2` and started at tick `0`, so `deallocate(5)` frees block `1`. -/
theorem deallocate_frees_iff_elapsed_witness :
    (busyWitnessState.busyList.Nodup
      ∧ (∀ i ∈ busyWitnessState.busyList, okB busyWitnessState i = true)
      ∧ 1 ∈ busyWitnessState.busyList
      ∧ dGet busyWitnessState.ram 1 = some (Block.mk 1 10 1 true 0)
      ∧ dGet busyWitnessState.jobMap (Block.mk 1 10 1 true 0).jid = some (Job.mk 1 2 5)
      ∧ busyWitnessState.deallocate 5 = some freedWitnessState)
    ∧ (((Job.mk 1 2 5).time ≤ 5 - (Block.mk 1 10 1 true 0).jobStart →
          dGet freedWitnessState.ram 1 = some (Block.mk 1 10 1 true 0).deallocate
            ∧ 1 ∉ freedWitnessState.busyList ∧ 1 ∈ freedWitnessState.freeList)
      ∧ (5 - (Block.mk 1 10 1 true 0).jobStart < (Job.mk 1 2 5).time →
          dGet freedWitnessState.ram 1 = some (Block.mk 1 10 1 true 0)
            ∧ 1 ∈ freedWitnessState.busyList)) :=
  ⟨⟨by decide, by decide, by decide, by decide, by decide, by decide⟩,
   deallocate_frees_iff_elapsed busyWitnessState 5 1 (Block.mk 1 10 1 true 0) (Job.mk 1 2 5)
     (by decide) (by decide) (by decide) (by decide) (by decide) freedWitnessState (by decide)⟩

/-- **C10** (implicit).  `deallocate` is idempotent at a fixed tick: on a
well-formed state, if `deallocate(t)` produces `s'` then running
`deallocate(t)` again on `s'` returns exactly `s'` — same free/busy
partition, same block fields, same latest-tick record. -/
theorem deallocate_idempotent (s : Alloc) (t : ℤ) (s' : Alloc)
    (hnd : s.busyList.Nodup)
    (hok : ∀ i ∈ s.busyList, okB s i = true)
    (hd : s.deallocate t = some s') :
    s'.deallocate t = some s' := by
  obtain ⟨s'', heq, hbusy, hmap, htt, hfr, hjm, hout, hexpd, hkeep, hfree⟩ :=
    deallocate_spec s t hnd hok
  rw [hd] at heq
  have hss : s' = s'' := Option.some.inj heq
  subst hss
  have hmem : ∀ i ∈ s'.busyList, i ∈ s.busyList ∧ expiredB s t i = false := by
    intro i hi
    rw [hbusy] at hi
    have h2 := List.mem_filter.mp hi
    exact ⟨h2.1, by simpa using h2.2⟩
  have hramkeep : ∀ i ∈ s'.busyList, dGet s'.ram i = dGet s.ram i := fun i hi =>
    hkeep i (hmem i hi).1 (hmem i hi).2
  have hok' : ∀ i ∈ s'.busyList, okB s' i = true := by
    intro i hi
    rw [okB_congr s s' i (hramkeep i hi) hmap]
    exact hok i (hmem i hi).1
  have hexp' : ∀ i ∈ s'.busyList, expiredB s' t i = false := by
    intro i hi
    rw [expiredB_congr s s' t i (hramkeep i hi) hmap]
    exact (hmem i hi).2
  simp only [Alloc.deallocate]
  have hs0 : ({ s' with totalTicks := some t } : Alloc) = s' := by
    rw [← htt]
  rw [hs0, deallocAux_no_change t s'.busyList s' []
    (fun i hi => ⟨hok' i hi, hexp' i hi⟩)]
  rfl

/-- Witness for deallocate idempotence: freeing block `1` at tick `5` and
deallocating again at tick `5` changes nothing. -/
theorem deallocate_idempotent_witness :
    (busyWitnessState.busyList.Nodup
      ∧ (∀ i ∈ busyWitnessState.busyList, okB busyWitnessState i = true)
      ∧ busyWitnessState.deallocate 5 = some freedWitnessState)
    ∧ freedWitnessState.deallocate 5 = some freedWitnessState :=
  ⟨⟨by decide, by decide, by decide⟩,
   deallocate_idempotent busyWitnessState 5 freedWitnessState (by decide) (by decide) (by decide)⟩

/-- Witness for the failure-has-no-side-effects theorem: `Alloc([3])`
cannot fit a job of size `5` under either policy. -/
theorem placement_failure_no_side_effects_witness :
    ((∀ j ∈ (Alloc.init [3]).freeList, (dGet (Alloc.init [3]).ram j).isSome = true)
      ∧ (∀ j ∈ (Alloc.init [3]).freeList, fitsB (Alloc.init [3]) (Job.mk 1 2 5) j = false))
    ∧ ((Alloc.init [3]).firstFit 0 (Job.mk 1 2 5) = some (false, Alloc.init [3])
      ∧ (Alloc.init [3]).bestFit 0 (Job.mk 1 2 5) = some (false, Alloc.init [3])) :=
  ⟨⟨by decide, by decide⟩,
   placement_failure_no_side_effects (Alloc.init [3]) 0 (Job.mk 1 2 5) (by decide) (by decide)⟩

lemma firstFitAux_delta (s : Alloc) (t : ℤ) (job : Job) : ∀ (l : List ℕ) (r : Bool) (s' : Alloc),
    s.firstFitAux t job l = some (r, s') →
    (r = true → ∃ z, chosenSizeAux s.ram job l = some z
        ∧ s'.totalFragmentation + s'.totalJobMemory
            = s.totalFragmentation + s.totalJobMemory + z)
    ∧ (r = false → s' = s)
  | [], r, s', h => by
    rw [Alloc.firstFitAux] at h
    have h2 := Option.some.inj h
    injection h2 with hr hs
    constructor
    · intro htr
      rw [← hr] at htr
      exact absurd htr (by simp)
    · intro _
      exact hs.symm
  | i :: l, r, s', h => by
    cases hb : dGet s.ram i with
    | none => simp [Alloc.firstFitAux, hb] at h
    | some b =>
      simp only [Alloc.firstFitAux, hb] at h
      by_cases hfit : job.size ≤ b.size
      · rw [if_pos hfit] at h
        have h2 := Option.some.inj h
        injection h2 with hr hs
        constructor
        · intro _
          refine ⟨b.size, by simp [chosenSizeAux, hb, hfit], ?_⟩
          rw [← hs]
          simp only [Alloc.placeAt]
          ring
        · intro hrf
          rw [← hr] at hrf
          exact absurd hrf (by simp)
      · rw [if_neg hfit] at h
        have ih := firstFitAux_delta s t job l r s' h
        constructor
        · intro htr
          obtain ⟨z, hz, hsum⟩ := ih.1 htr
          exact ⟨z, by simp [chosenSizeAux, hb, hfit, hz], hsum⟩
        · exact ih.2

lemma bestFit_delta (s : Alloc) (t : ℤ) (job : Job) (r : Bool) (s' : Alloc)
    (h : s.bestFit t job = some (r, s')) :
    (r = true → ∃ z, chosenSizeBF s job = some z
        ∧ s'.totalFragmentation + s'.totalJobMemory
            = s.totalFragmentation + s.totalJobMemory + z)
    ∧ (r = false → s'.totalFragmentation = s.totalFragmentation
        ∧ s'.totalJobMemory = s.totalJobMemory) := by
  cases hbp : buildPairs s.ram s.freeList with
  | none => simp [Alloc.bestFit, hbp] at h
  | some pairs =>
    rw [bestFit_eq s t job pairs hbp] at h
    cases haux : Alloc.firstFitAux
        { s with freeList := (sortByKey (fun p => p.1) pairs).map (fun p => p.2) } t job
        ((sortByKey (fun p => p.1) pairs).map (fun p => p.2)) with
    | none =>
      rw [haux] at h
      exact Option.noConfusion h
    | some pr =>
      obtain ⟨r0, s1⟩ := pr
      rw [haux] at h
      change some (r0, { s1 with freeList := s.freeList }) = some (r, s') at h
      have h2 := Option.some.inj h
      injection h2 with hr hs
      have ih := firstFitAux_delta
        { s with freeList := (sortByKey (fun p => p.1) pairs).map (fun p => p.2) } t job
        ((sortByKey (fun p => p.1) pairs).map (fun p => p.2)) r0 s1 haux
      subst hr
      constructor
      · intro htr
        obtain ⟨z, hz, hsum⟩ := ih.1 htr
        refine ⟨z, ?_, ?_⟩
        · simp only [chosenSizeBF, hbp]
          exact hz
        · rw [← hs]
          exact hsum
      · intro hrf
        have hse := ih.2 hrf
        rw [← hs, hse]
        exact ⟨rfl, rfl⟩

lemma deallocAux_preserves (t : ℤ) : ∀ (l : List ℕ) (s : Alloc) (acc : List ℕ)
    (s1 : Alloc) (rem : List ℕ),
    Alloc.deallocAux t l s acc = some (s1, rem) →
    s1.totalFragmentation = s.totalFragmentation ∧ s1.totalJobMemory = s.totalJobMemory
  | [], s, acc, s1, rem, h => by
    rw [Alloc.deallocAux] at h
    have h2 := Option.some.inj h
    injection h2 with hs hrm
    rw [← hs]
    exact ⟨rfl, rfl⟩
  | i :: l, s, acc, s1, rem, h => by
    cases hb : dGet s.ram i with
    | none => simp [Alloc.deallocAux, hb] at h
    | some b =>
      cases hj : dGet s.jobMap b.jid with
      | none => simp [Alloc.deallocAux, hb, hj] at h
      | some job =>
        simp only [Alloc.deallocAux, hb, hj] at h
        by_cases hcond : job.time ≤ t - b.jobStart
        · rw [if_pos hcond] at h
          have hp := deallocAux_preserves t l
            { s with ram := dSet s.ram i b.deallocate, freeList := setAdd s.freeList i }
            (acc ++ [i]) s1 rem h
          exact hp
        · rw [if_neg hcond] at h
          exact deallocAux_preserves t l s acc s1 rem h

lemma deallocate_some (s : Alloc) (t : ℤ) (s' : Alloc) (h : s.deallocate t = some s') :
    ∃ s1 rem bl, Alloc.deallocAux t s.busyList { s with totalTicks := some t } [] = some (s1, rem)
      ∧ setRemoveAll s1.busyList rem = some bl ∧ s' = { s1 with busyList := bl } := by
  cases haux : Alloc.deallocAux t s.busyList { s with totalTicks := some t } [] with
  | none =>
    rw [Alloc.deallocate, haux] at h
    exact Option.noConfusion h
  | some pr =>
    obtain ⟨s1, rem⟩ := pr
    rw [deallocate_eq s t s1 rem haux] at h
    cases hrem : setRemoveAll s1.busyList rem with
    | none =>
      rw [hrem] at h
      exact Option.noConfusion h
    | some bl =>
      rw [hrem] at h
      exact ⟨s1, rem, bl, rfl, hrem, (Option.some.inj h).symm⟩

lemma deallocate_preserves (s : Alloc) (t : ℤ) (s' : Alloc) (h : s.deallocate t = some s') :
    s'.totalFragmentation = s.totalFragmentation ∧ s'.totalJobMemory = s.totalJobMemory := by
  obtain ⟨s1, rem, bl, haux, hrem, hs⟩ := deallocate_some s t s' h
  have hp := deallocAux_preserves t s.busyList _ [] s1 rem haux
  rw [hs]
  exact hp

lemma calcStats_preserves (s : Alloc) (r : List (String × StatVal)) (s' : Alloc)
    (h : s.calcStats = some (r, s')) :
    s'.totalFragmentation = s.totalFragmentation ∧ s'.totalJobMemory = s.totalJobMemory := by
  cases htt : s.totalTicks with
  | none =>
    have hnone : s.calcStats = none := by simp [Alloc.calcStats, htt]
    rw [hnone] at h
    exact Option.noConfusion h
  | some tt =>
    have hcs : ∃ r1, s.calcStats
        = some (r1, { (Alloc.calcStorageUtilization s).2 with usageStats := r1 }) := by
      simp only [Alloc.calcStats, htt]
      exact ⟨_, rfl⟩
    obtain ⟨r1, hr1⟩ := hcs
    rw [hr1] at h
    have h2 := Option.some.inj h
    injection h2 with hr2 hs
    rw [← hs]
    exact ⟨rfl, rfl⟩

lemma runCons_delta : ∀ (ops : List Op) (s s' : Alloc) (total : ℤ),
    runCons s ops = some (s', total) →
    s'.totalFragmentation + s'.totalJobMemory
      = s.totalFragmentation + s.totalJobMemory + total
  | [], s, s', total, h => by
    rw [runCons] at h
    have h2 := Option.some.inj h
    injection h2 with hs ht
    rw [← hs, ← ht]
    ring
  | Op.ff t job :: ops, s, s', total, h => by
    cases hff : s.firstFit t job with
    | none => simp [runCons, hff] at h
    | some pr =>
      obtain ⟨r0, s1⟩ := pr
      simp only [runCons, hff] at h
      cases hrc : runCons s1 ops with
      | none =>
        rw [hrc] at h
        exact Option.noConfusion h
      | some pr2 =>
        obtain ⟨s2, tot2⟩ := pr2
        rw [hrc] at h
        change some (s2, tot2 + if r0 = true then (chosenSizeFF s job).getD 0 else 0)
          = some (s', total) at h
        have h2 := Option.some.inj h
        injection h2 with hs ht
        have ih := runCons_delta ops s1 s2 tot2 hrc
        have hd := firstFitAux_delta s t job s.freeList r0 s1 hff
        rw [← hs]
        cases r0 with
        | true =>
          obtain ⟨z, hz, hsum⟩ := hd.1 rfl
          have hδ : (chosenSizeFF s job).getD 0 = z := by
            have hz' : chosenSizeFF s job = some z := hz
            rw [hz']
            rfl
          have ht' : tot2 + z = total := by simpa [hδ] using ht
          omega
        | false =>
          have hse := hd.2 rfl
          have ht' : tot2 + 0 = total := by simpa using ht
          rw [hse] at ih
          omega
  | Op.bf t job :: ops, s, s', total, h => by
    cases hbf : s.bestFit t job with
    | none => simp [runCons, hbf] at h
    | some pr =>
      obtain ⟨r0, s1⟩ := pr
      simp only [runCons, hbf] at h
      cases hrc : runCons s1 ops with
      | none =>
        rw [hrc] at h
        exact Option.noConfusion h
      | some pr2 =>
        obtain ⟨s2, tot2⟩ := pr2
        rw [hrc] at h
        change some (s2, tot2 + if r0 = true then (chosenSizeBF s job).getD 0 else 0)
          = some (s', total) at h
        have h2 := Option.some.inj h
        injection h2 with hs ht
        have ih := runCons_delta ops s1 s2 tot2 hrc
        have hd := bestFit_delta s t job r0 s1 hbf
        rw [← hs]
        cases r0 with
        | true =>
          obtain ⟨z, hz, hsum⟩ := hd.1 rfl
          have hδ : (chosenSizeBF s job).getD 0 = z := by
            rw [hz]
            rfl
          have ht' : tot2 + z = total := by simpa [hδ] using ht
          omega
        | false =>
          obtain ⟨hf, hm⟩ := hd.2 rfl
          have ht' : tot2 + 0 = total := by simpa using ht
          rw [hf, hm] at ih
          omega
  | Op.dealloc t :: ops, s, s', total, h => by
    cases hda : s.deallocate t with
    | none => simp [runCons, hda] at h
    | some s1 =>
      simp only [runCons, hda] at h
      have ih := runCons_delta ops s1 s' total h
      obtain ⟨hf, hm⟩ := deallocate_preserves s t s1 hda
      rw [hf, hm] at ih
      exact ih
  | Op.can job :: ops, s, s', total, h => by
    cases hca : s.canAllocate job with
    | none => simp [runCons, hca] at h
    | some b =>
      simp only [runCons, hca] at h
      exact runCons_delta ops s s' total h
  | Op.stats :: ops, s, s', total, h => by
    cases hcs : s.calcStats with
    | none => simp [runCons, hcs] at h
    | some pr =>
      obtain ⟨r1, s1⟩ := pr
      simp only [runCons, hcs] at h
      have ih := runCons_delta ops s1 s' total h
      obtain ⟨hf, hm⟩ := calcStats_preserves s r1 s1 hcs
      rw [hf, hm] at ih
      exact ih

/-- **C9**.  Conservation of placed capacity: each successful placement
(first-fit or best-fit) increases `totalFragmentation + totalJobMemory`
by exactly the chosen block's size at that moment (the per-placement
identity), and hence for every run history from construction the
accumulated `totalFragmentation + totalJobMemory` equals the sum of the
chosen blocks' sizes over all successful placements. -/
theorem fragmentation_conservation :
    (∀ (s : Alloc) (t : ℤ) (job : Job) (s' : Alloc),
        s.firstFit t job = some (true, s') →
        ∃ z, chosenSizeFF s job = some z
          ∧ s'.totalFragmentation + s'.totalJobMemory
              = s.totalFragmentation + s.totalJobMemory + z)
    ∧ (∀ (s : Alloc) (t : ℤ) (job : Job) (s' : Alloc),
        s.bestFit t job = some (true, s') →
        ∃ z, chosenSizeBF s job = some z
          ∧ s'.totalFragmentation + s'.totalJobMemory
              = s.totalFragmentation + s.totalJobMemory + z)
    ∧ (∀ (sizes : List ℤ) (ops : List Op) (s' : Alloc) (total : ℤ),
        runCons (Alloc.init sizes) ops = some (s', total) →
        s'.totalFragmentation + s'.totalJobMemory = total) := by
  refine ⟨?_, ?_, ?_⟩
  · intro s t job s' h
    exact (firstFitAux_delta s t job s.freeList true s' h).1 rfl
  · intro s t job s' h
    exact (bestFit_delta s t job true s' h).1 rfl
  · intro sizes ops s' total h
    have h2 := runCons_delta ops (Alloc.init sizes) s' total h
    simpa [Alloc.init] using h2

/-- Witness for conservation: placing a size-4 job into the size-10
block of `Alloc([10])` leaves fragmentation 6 and job memory 4, and
`6 + 4 = 10`, the chosen block's size. -/
theorem fragmentation_conservation_witness :
    runCons (Alloc.init [10]) [Op.ff 0 (Job.mk 1 1 4)] = some (consWitnessState, 10)
    ∧ consWitnessState.totalFragmentation + consWitnessState.totalJobMemory = 10 :=
  ⟨by decide,
   fragmentation_conservation.2.2 [10] [Op.ff 0 (Job.mk 1 1 4)] consWitnessState 10 (by decide)⟩
